import Mathlib

/-!
Verification of the PCM sample-manipulation layer of the Musico repository
(`pyaudioop_compat.py`) against its natural-language specification.

The audio fragments of the source are byte strings; here a fragment is a
`List Nat` whose entries are byte values (< 256; theorems that depend on
byte-rangeness carry it as a hypothesis).  Python's `struct.unpack('<ih')`
decoding of little-endian signed 16/32-bit samples, `struct.pack` encoding,
floor division `//` (`Int.fdiv`), modulo `%` with positive modulus
(`Int.emod`), and `int()` truncation toward zero of a float (`Int.tdiv` on
an exact rational) are each modelled explicitly.  Float factors are
embedded as exact rationals: every Python float value is a rational, and
the claims proved about factors (saturation bounds, exactly representable
concrete factors such as 2.0) are insensitive to the rounding of float
arithmetic because the saturating clip is applied after the multiplication.
-/

namespace Audioop

/-- Error outcomes of the source's operations: `ValueError("Unsupported
sample width...")`, `ValueError("Fragments must have the same length")`,
and the `struct.error` raised by `struct.unpack` when the buffer length is
not a multiple of the requested item size. -/
inductive AudioError where
  | unsupportedWidth
  | lengthMismatch
  | structError
  deriving DecidableEq, Repr

/-- `_clip(val, min_val, max_val) = max(min_val, min(val, max_val))`. -/
def clip (val min_val max_val : Int) : Int :=
  max min_val (min val max_val)

/-- Python `int(x)` applied to an exact rational: truncation toward zero. -/
def truncQ (q : Rat) : Int :=
  q.num.tdiv q.den

/-- Value of a little-endian signed 16-bit sample with byte values
`lo`, `hi` (as read by `struct.unpack('<h', ...)`). -/
def decode16 (lo hi : Nat) : Int :=
  if lo + 256 * hi < 32768 then (lo + 256 * hi : Int)
  else (lo + 256 * hi : Int) - 65536

/-- Value of a little-endian signed 32-bit sample with byte values
`b0..b3` (as read by `struct.unpack('<i', ...)`). -/
def decode32 (b0 b1 b2 b3 : Nat) : Int :=
  if b0 + 256 * b1 + 65536 * b2 + 16777216 * b3 < 2147483648 then
    (b0 + 256 * b1 + 65536 * b2 + 16777216 * b3 : Int)
  else (b0 + 256 * b1 + 65536 * b2 + 16777216 * b3 : Int) - 4294967296

/-- `struct.pack('<h', s)`: the two little-endian bytes of a signed 16-bit
sample (`%` on `Int` is Euclidean modulo, which agrees with Python `%` for
the positive moduli used here).  Every call site in the source clips `s`
into `[-32768, 32767]` first, so the two's-complement wrap `s % 65536` is
exact there. -/
def pack16 (s : Int) : List Nat :=
  [(s % 65536).toNat % 256, (s % 65536).toNat / 256]

/-- `struct.pack('<i', s)`: the four little-endian bytes of a signed 32-bit
sample (call sites clip into the 32-bit range first). -/
def pack32 (s : Int) : List Nat :=
  [(s % 4294967296).toNat % 256,
   (s % 4294967296).toNat / 256 % 256,
   (s % 4294967296).toNat / 65536 % 256,
   (s % 4294967296).toNat / 16777216]

/-- `struct.pack('<Nh', *samples)`. -/
def pack16List : List Int → List Nat
  | [] => []
  | s :: rest => pack16 s ++ pack16List rest

/-- `struct.pack('<Ni', *samples)`. -/
def pack32List : List Int → List Nat
  | [] => []
  | s :: rest => pack32 s ++ pack32List rest

/-- `struct.unpack('<Nh', fragment)` with `N = len(fragment) // 2`: fails
with `struct.error` exactly when the byte length is odd. -/
def unpack16 : List Nat → Except AudioError (List Int)
  | [] => .ok []
  | [_] => .error .structError
  | lo :: hi :: rest => do
      let s ← unpack16 rest
      .ok (decode16 lo hi :: s)

/-- `struct.unpack('<Ni', fragment)` with `N = len(fragment) // 4`: fails
with `struct.error` exactly when the byte length is not a multiple of 4. -/
def unpack32 : List Nat → Except AudioError (List Int)
  | [] => .ok []
  | [_] => .error .structError
  | [_, _] => .error .structError
  | [_, _, _] => .error .structError
  | b0 :: b1 :: b2 :: b3 :: rest => do
      let s ← unpack32 rest
      .ok (decode32 b0 b1 b2 b3 :: s)

/-- The `(d, prev_i, cur_i)` tuple threaded through `ratecv`. -/
structure RatecvState where
  d : Int
  prev_i : List Int
  cur_i : List Int
  deriving DecidableEq, Repr

/-- `ratecv(fragment, nchannels, inrate, outrate, state)`.  The source
never uses `weightA`/`weightB`; it returns the fragment unchanged in every
case, returning the *original* `state` argument when the rates are equal
and the tuple `(d, prev_i, cur_i)` of its local variables otherwise. -/
def ratecv (fragment : List Nat) (nchannels inrate outrate : Nat)
    (state : Option RatecvState) : List Nat × Option RatecvState :=
  if fragment = [] then (fragment, state)
  else
    let s : RatecvState :=
      match state with
      | none => ⟨0, List.replicate nchannels 0, List.replicate nchannels 0⟩
      | some st => st
    if inrate = outrate then (fragment, state)
    else (fragment, some s)

/-- `mul(fragment, width, factor)`. -/
def mul (fragment : List Nat) (width : Nat) (factor : Rat) :
    Except AudioError (List Nat) :=
  if fragment = [] then .ok fragment
  else if width = 1 then
    .ok (fragment.map fun s : Nat => (clip (truncQ ((s : Rat) * factor)) 0 255).toNat)
  else if width = 2 then do
    let samples ← unpack16 fragment
    .ok (pack16List (samples.map fun s : Int =>
      clip (truncQ ((s : Rat) * factor)) (-32768) 32767))
  else if width = 4 then do
    let samples ← unpack32 fragment
    .ok (pack32List (samples.map fun s : Int =>
      clip (truncQ ((s : Rat) * factor)) (-2147483648) 2147483647))
  else .error .unsupportedWidth

/-- `add(fragment1, fragment2, width)`. -/
def add (fragment1 fragment2 : List Nat) (width : Nat) :
    Except AudioError (List Nat) :=
  if fragment1.length ≠ fragment2.length then .error .lengthMismatch
  else if fragment1 = [] then .ok fragment1
  else if width = 1 then
    .ok (List.zipWith (fun (s1 s2 : Nat) => (clip ((s1 : Int) + (s2 : Int)) 0 255).toNat)
      fragment1 fragment2)
  else if width = 2 then do
    let samples1 ← unpack16 fragment1
    let samples2 ← unpack16 fragment2
    .ok (pack16List (List.zipWith (fun s1 s2 => clip (s1 + s2) (-32768) 32767)
      samples1 samples2))
  else if width = 4 then do
    let samples1 ← unpack32 fragment1
    let samples2 ← unpack32 fragment2
    .ok (pack32List (List.zipWith
      (fun s1 s2 => clip (s1 + s2) (-2147483648) 2147483647)
      samples1 samples2))
  else .error .unsupportedWidth

/-- `bias(fragment, width, bias)`. -/
def bias (fragment : List Nat) (width : Nat) (b : Int) :
    Except AudioError (List Nat) :=
  if fragment = [] then .ok fragment
  else if width = 1 then
    .ok (fragment.map fun s : Nat => (clip ((s : Int) + b) 0 255).toNat)
  else if width = 2 then do
    let samples ← unpack16 fragment
    .ok (pack16List (samples.map fun s => clip (s + b) (-32768) 32767))
  else if width = 4 then do
    let samples ← unpack32 fragment
    .ok (pack32List (samples.map fun s =>
      clip (s + b) (-2147483648) 2147483647))
  else .error .unsupportedWidth

/-- `fragment[i:i+width]`. -/
def pySlice (fragment : List Nat) (i width : Nat) : List Nat :=
  (fragment.drop i).take width

/-- Number of iterations of the loop
`for i in range(len(fragment) - width, -1, -width)` (empty when
`width > len`; the source raises on `width = 0`, modelled as zero
iterations, a case no theorem relies on). -/
def revIters (len width : Nat) : Nat :=
  if 0 < width ∧ width ≤ len then (len - width) / width + 1 else 0

/-- The loop body of `reverse`: starting at byte index `i`, collect
`fragment[i:i+width]` and step the index down by `width`, for the given
number of iterations. -/
def revGo (fragment : List Nat) (width : Nat) : Nat → Nat → List Nat
  | _, 0 => []
  | i, k + 1 => pySlice fragment i width ++ revGo fragment width (i - width) k

/-- `reverse(fragment, width)`. -/
def reverse (fragment : List Nat) (width : Nat) : List Nat :=
  if fragment = [] then fragment
  else revGo fragment width (fragment.length - width)
    (revIters fragment.length width)

/-- The sample (chunk of `width` bytes) at sample position `i` of a
fragment: `fragment[i*width : i*width + width]`. -/
def chunkAt (fragment : List Nat) (width i : Nat) : List Nat :=
  (fragment.drop (i * width)).take width

/-- The pairing loop shared by the three width branches of `tomono`:
`for i in range(0, len(samples), 2): if i + 1 < len(samples): ...`, which
combines samples two at a time and drops a trailing unmatched sample. -/
def monoPairs (lfactor rfactor : Rat) (lo hi : Int) : List Int → List Int
  | left :: right :: rest =>
      clip (truncQ ((left : Rat) * lfactor + (right : Rat) * rfactor)) lo hi ::
        monoPairs lfactor rfactor lo hi rest
  | _ => []

/-- `tomono(fragment, width, lfactor, rfactor)`. -/
def tomono (fragment : List Nat) (width : Nat) (lfactor rfactor : Rat) :
    Except AudioError (List Nat) :=
  if fragment = [] then .ok fragment
  else if width = 1 then
    .ok ((monoPairs lfactor rfactor 0 255
      (fragment.map fun s : Nat => (s : Int))).map Int.toNat)
  else if width = 2 then do
    let samples ← unpack16 fragment
    .ok (pack16List (monoPairs lfactor rfactor (-32768) 32767 samples))
  else if width = 4 then do
    let samples ← unpack32 fragment
    .ok (pack32List (monoPairs lfactor rfactor (-2147483648) 2147483647 samples))
  else .error .unsupportedWidth

/-- `lin2lin(fragment, width, newwidth)`. -/
def lin2lin (fragment : List Nat) (width newwidth : Nat) :
    Except AudioError (List Nat) :=
  if width = newwidth then .ok fragment
  else if fragment = [] then .ok fragment
  else do
    let samples ←
      if width = 1 then
        Except.ok (fragment.map fun s : Nat => ((s : Int) - 128) * 256)
      else if width = 2 then unpack16 fragment
      else if width = 4 then unpack32 fragment
      else Except.error AudioError.unsupportedWidth
    if newwidth = 1 then
      Except.ok (samples.map fun s => (clip (s.fdiv 256 + 128) 0 255).toNat)
    else if newwidth = 2 then
      Except.ok (pack16List (samples.map fun s => clip s (-32768) 32767))
    else if newwidth = 4 then
      Except.ok (pack32List (samples.map fun s =>
        clip s (-2147483648) 2147483647))
    else Except.error AudioError.unsupportedWidth

/-- `lin2ulaw(fragment, width)` (the source's simplified affine stand-in
for mu-law encoding). -/
def lin2ulaw (fragment : List Nat) (width : Nat) :
    Except AudioError (List Nat) :=
  if fragment = [] then .ok fragment
  else if width = 1 then .ok fragment
  else if width = 2 then do
    let samples ← unpack16 fragment
    .ok (samples.map fun s => (clip ((s + 32768).fdiv 256) 0 255).toNat)
  else .error .unsupportedWidth

/-- `ulaw2lin(fragment, width)` (the source's simplified affine stand-in
for mu-law decoding). -/
def ulaw2lin (fragment : List Nat) (width : Nat) :
    Except AudioError (List Nat) :=
  if fragment = [] then .ok fragment
  else if width = 1 then .ok fragment
  else if width = 2 then
    .ok (pack16List (fragment.map fun u : Nat =>
      clip (((u : Int) - 128) * 256) (-32768) 32767))
  else .error .unsupportedWidth

end Audioop

deriving instance DecidableEq for Except

namespace Audioop

/-! ### Basic facts about the clip helper and the sample codecs -/

theorem clip_lower (v lo hi : Int) : lo ≤ clip v lo hi :=
  le_max_left _ _

theorem clip_upper (v lo hi : Int) (h : lo ≤ hi) : clip v lo hi ≤ hi :=
  max_le h (min_le_right _ _)

theorem clip_of_mem (v lo hi : Int) (h1 : lo ≤ v) (h2 : v ≤ hi) :
    clip v lo hi = v := by
  unfold clip
  rw [min_eq_left h2, max_eq_right h1]

theorem except_bind_ok {ε α β : Type} (a : α) (f : α → Except ε β) :
    ((Except.ok a : Except ε α) >>= f) = f a := rfl

theorem except_bind_error {ε α β : Type} (e : ε) (f : α → Except ε β) :
    ((Except.error e : Except ε α) >>= f) = Except.error e := rfl

theorem except_bind_eq_ok {ε α β : Type} {x : Except ε α}
    {f : α → Except ε β} {b : β} (h : (x >>= f) = .ok b) :
    ∃ a, x = .ok a ∧ f a = .ok b := by
  cases x with
  | error e => rw [except_bind_error] at h; exact absurd h (by simp)
  | ok a => rw [except_bind_ok] at h; exact ⟨a, rfl, h⟩

theorem decode16_pack16 (s : Int) (h1 : -32768 ≤ s) (h2 : s ≤ 32767) :
    decode16 ((s % 65536).toNat % 256) ((s % 65536).toNat / 256) = s := by
  unfold decode16
  split <;> omega

theorem unpack16_pack16List :
    ∀ ss : List Int, (∀ s ∈ ss, -32768 ≤ s ∧ s ≤ 32767) →
      unpack16 (pack16List ss) = .ok ss
  | [], _ => rfl
  | s :: rest, h => by
      have hs := h s (List.mem_cons_self s rest)
      have ih := unpack16_pack16List rest fun x hx =>
        h x (List.mem_cons_of_mem s hx)
      show unpack16 ((s % 65536).toNat % 256 :: (s % 65536).toNat / 256 ::
        pack16List rest) = _
      simp only [unpack16, ih, except_bind_ok, decode16_pack16 s hs.1 hs.2]

theorem pack16List_length (ss : List Int) :
    (pack16List ss).length = 2 * ss.length := by
  induction ss with
  | nil => rfl
  | cons s rest ih => simp [pack16List, pack16, ih]; omega

theorem unpack16_length :
    ∀ (l : List Nat) (ss : List Int), unpack16 l = .ok ss →
      l.length = 2 * ss.length
  | [], ss, h => by
      simp only [unpack16] at h
      cases h
      rfl
  | [_], ss, h => by
      simp only [unpack16] at h
      exact absurd h (by simp)
  | a :: b :: rest, ss, h => by
      simp only [unpack16] at h
      obtain ⟨ss', hr, hok⟩ := except_bind_eq_ok h
      obtain rfl : decode16 a b :: ss' = ss := by
        simpa using hok
      have := unpack16_length rest ss' hr
      simp only [List.length_cons, this]
      omega

theorem unpack16_bounds :
    ∀ (l : List Nat) (ss : List Int), unpack16 l = .ok ss →
      (∀ b ∈ l, b < 256) → ∀ s ∈ ss, -32768 ≤ s ∧ s ≤ 32767
  | [], ss, h, _ => by
      simp only [unpack16] at h
      cases h
      simp
  | [_], ss, h, _ => by
      simp only [unpack16] at h
      exact absurd h (by simp)
  | a :: b :: rest, ss, h, hb => by
      simp only [unpack16] at h
      obtain ⟨ss', hr, hok⟩ := except_bind_eq_ok h
      obtain rfl : decode16 a b :: ss' = ss := by
        simpa using hok
      intro s hs
      rcases List.mem_cons.mp hs with hs | hs
      · subst hs
        have ha : a < 256 := hb a (by simp)
        have hbb : b < 256 := hb b (by simp)
        unfold decode16
        split <;> omega
      · exact unpack16_bounds rest ss' hr
          (fun x hx => hb x (by simp [hx])) s hs

theorem truncQ_intCast (n : Int) : truncQ ((n : Rat)) = n := by
  unfold truncQ
  rw [Rat.num_intCast, Rat.den_intCast, Nat.cast_one, Int.tdiv_one]

theorem map_clip_id (l : List Int) (lo hi : Int)
    (h : ∀ s ∈ l, lo ≤ s ∧ s ≤ hi) :
    l.map (fun s => clip s lo hi) = l := by
  induction l with
  | nil => rfl
  | cons a rest ih =>
      have ha := h a (by simp)
      simp only [List.map_cons, clip_of_mem a lo hi ha.1 ha.2,
        ih fun x hx => h x (by simp [hx])]

theorem monoPairs_length (lf rf : Rat) (lo hi : Int) :
    ∀ ss : List Int, (monoPairs lf rf lo hi ss).length = ss.length / 2
  | [] => rfl
  | [_] => by
      show (0 : Nat) = 1 / 2
      rfl
  | a :: b :: rest => by
      simp only [monoPairs, List.length_cons,
        monoPairs_length lf rf lo hi rest]
      omega

theorem pack32List_length (ss : List Int) :
    (pack32List ss).length = 4 * ss.length := by
  induction ss with
  | nil => rfl
  | cons s rest ih => simp [pack32List, pack32, ih]; omega

theorem unpack32_length :
    ∀ (l : List Nat) (ss : List Int), unpack32 l = .ok ss →
      l.length = 4 * ss.length
  | [], ss, h => by
      simp only [unpack32] at h
      cases h
      rfl
  | [_], ss, h => by
      simp only [unpack32] at h
      exact absurd h (by simp)
  | [_, _], ss, h => by
      simp only [unpack32] at h
      exact absurd h (by simp)
  | [_, _, _], ss, h => by
      simp only [unpack32] at h
      exact absurd h (by simp)
  | b0 :: b1 :: b2 :: b3 :: rest, ss, h => by
      simp only [unpack32] at h
      obtain ⟨ss', hr, hok⟩ := except_bind_eq_ok h
      obtain rfl : decode32 b0 b1 b2 b3 :: ss' = ss := by
        simpa using hok
      have := unpack32_length rest ss' hr
      simp only [List.length_cons, this]
      omega

/-! ### Branch lemmas: the width dispatch of each operation, with the
numeric-literal conditionals reduced -/

theorem mul_two (fragment : List Nat) (factor : Rat) (hf : fragment ≠ []) :
    mul fragment 2 factor = (do
      let samples ← unpack16 fragment
      Except.ok (pack16List (samples.map fun s : Int =>
        clip (truncQ ((s : Rat) * factor)) (-32768) 32767))) := by
  simp only [mul, if_neg hf]
  rfl

theorem tomono_one (fragment : List Nat) (lf rf : Rat) (hf : fragment ≠ []) :
    tomono fragment 1 lf rf =
      .ok ((monoPairs lf rf 0 255 (fragment.map fun s : Nat => (s : Int))).map
        Int.toNat) := by
  simp only [tomono, if_neg hf]
  rfl

theorem tomono_two (fragment : List Nat) (lf rf : Rat) (hf : fragment ≠ []) :
    tomono fragment 2 lf rf = (do
      let samples ← unpack16 fragment
      Except.ok (pack16List (monoPairs lf rf (-32768) 32767 samples))) := by
  simp only [tomono, if_neg hf]
  rfl

theorem tomono_four (fragment : List Nat) (lf rf : Rat) (hf : fragment ≠ []) :
    tomono fragment 4 lf rf = (do
      let samples ← unpack32 fragment
      Except.ok (pack32List
        (monoPairs lf rf (-2147483648) 2147483647 samples))) := by
  simp only [tomono, if_neg hf]
  rfl

theorem lin2lin_one_two (x : List Nat) (hx : x ≠ []) :
    lin2lin x 1 2 =
      .ok (pack16List ((x.map fun s : Nat => ((s : Int) - 128) * 256).map
        fun s => clip s (-32768) 32767)) := by
  simp only [lin2lin, if_neg hx]
  rfl

theorem lin2lin_two_one (y : List Nat) (hy : y ≠ []) :
    lin2lin y 2 1 = (do
      let samples ← unpack16 y
      Except.ok (samples.map fun s =>
        (clip (s.fdiv 256 + 128) 0 255).toNat)) := by
  simp only [lin2lin, if_neg hy]
  rfl

theorem lin2ulaw_two (x : List Nat) (hx : x ≠ []) :
    lin2ulaw x 2 = (do
      let samples ← unpack16 x
      Except.ok (samples.map fun s =>
        (clip ((s + 32768).fdiv 256) 0 255).toNat)) := by
  simp only [lin2ulaw, if_neg hx]
  rfl

theorem ulaw2lin_two (x : List Nat) (hx : x ≠ []) :
    ulaw2lin x 2 = .ok (pack16List (x.map fun u : Nat =>
      clip (((u : Int) - 128) * 256) (-32768) 32767)) := by
  simp only [ulaw2lin, if_neg hx]
  rfl

/-! ### C1: ratecv with equal rates and state=None -/

/-- C1 (corrected): with a non-empty fragment and `inRate == outRate`,
`ratecv` returns the fragment unchanged paired with the *original* state
argument — for `state=None` that is `None`, not the freshly initialized
`(0, [0], [0])`, which is computed into local variables and discarded. -/
theorem c1_ratecv_equal_rates_returns_original_state (fragment : List Nat)
    (nchannels inrate : Nat) (state : Option RatecvState)
    (hf : fragment ≠ []) :
    ratecv fragment nchannels inrate inrate state = (fragment, state) := by
  simp [ratecv, hf]

/-- C1 witness: the amended behavior at the claim's own input. -/
theorem c1_witness :
    ([1, 2, 3, 4] : List Nat) ≠ [] ∧
      ratecv [1, 2, 3, 4] 1 44100 44100 none = ([1, 2, 3, 4], none) :=
  ⟨by decide,
   c1_ratecv_equal_rates_returns_original_state [1, 2, 3, 4] 1 44100 none
     (by decide)⟩

/-- C1 counterexample: at the claim's input the returned state is `None`,
not the freshly initialized `(0, [0], [0])` the claim asserts. -/
theorem c1_counterexample :
    ratecv [1, 2, 3, 4] 1 44100 44100 none = ([1, 2, 3, 4], none) ∧
      ratecv [1, 2, 3, 4] 1 44100 44100 none ≠
        ([1, 2, 3, 4], some ⟨0, [0], [0]⟩) := by
  constructor <;> decide

/-! ### C2: unsupported widths in mul / add / bias -/

/-- C2 counterexample: on the *empty* fragment each of the three scalar
operations returns the empty fragment successfully instead of failing with
`UnsupportedWidth`, because the emptiness short-circuit precedes the width
check. -/
theorem c2_counterexample :
    mul [] 3 1 = .ok [] ∧ bias [] 3 0 = .ok [] ∧ add [] [] 3 = .ok [] := by
  refine ⟨rfl, rfl, rfl⟩

/-- C2 (corrected): for every *non-empty* fragment and width outside
{1,2,4}, `mul` and `bias` fail with `UnsupportedWidth`, and so does `add`
on two non-empty fragments of equal length (the empty fragment is instead
returned unchanged before the width is ever examined). -/
theorem c2_unsupported_width (fragment fragment2 : List Nat) (w : Nat)
    (factor : Rat) (b : Int) (hf : fragment ≠ [])
    (hw : w ≠ 1 ∧ w ≠ 2 ∧ w ≠ 4)
    (hlen : fragment2.length = fragment.length) :
    mul fragment w factor = .error .unsupportedWidth ∧
      bias fragment w b = .error .unsupportedWidth ∧
      add fragment fragment2 w = .error .unsupportedWidth := by
  obtain ⟨h1, h2, h4⟩ := hw
  refine ⟨?_, ?_, ?_⟩ <;> simp [mul, bias, add, hf, h1, h2, h4, hlen]

/-- C2 witness. -/
theorem c2_witness :
    (([0] : List Nat) ≠ [] ∧ ((3:Nat) ≠ 1 ∧ (3:Nat) ≠ 2 ∧ (3:Nat) ≠ 4) ∧
        ([7] : List Nat).length = ([0] : List Nat).length) ∧
      (mul [0] 3 1 = .error .unsupportedWidth ∧
        bias [0] 3 0 = .error .unsupportedWidth ∧
        add [0] [7] 3 = .error .unsupportedWidth) :=
  ⟨⟨by decide, by decide, by decide⟩,
   c2_unsupported_width [0] [7] 3 1 0 (by decide) (by decide) (by decide)⟩

/-! ### C3: ratecv with mismatched rates and state=None -/

/-- C3 (confirmed): with a non-empty fragment, `state=None` and
`inRate != outRate`, `ratecv` returns the fragment byte-for-byte unchanged
paired with the freshly initialized state (accumulator 0 and one zeroed
previous/current slot per channel); no resampling is performed. -/
theorem c3_ratecv_mismatch_passthrough (fragment : List Nat)
    (nchannels inrate outrate : Nat) (hf : fragment ≠ [])
    (hr : inrate ≠ outrate) :
    ratecv fragment nchannels inrate outrate none =
      (fragment,
        some ⟨0, List.replicate nchannels 0, List.replicate nchannels 0⟩) := by
  simp [ratecv, hf, hr]

/-- C3 witness: the spec's concrete scenario
`convert(b'\xAA\xBB', 1, 44100, 22050, None)`. -/
theorem c3_witness :
    ratecv [0xAA, 0xBB] 1 44100 22050 none =
      ([0xAA, 0xBB], some ⟨0, [0], [0]⟩) := by
  simpa using c3_ratecv_mismatch_passthrough [0xAA, 0xBB] 1 44100 22050
    (by decide) (by decide)

/-! ### C4: add length mismatch -/

/-- C4 (confirmed): for every pair of fragments and every width, `add`
fails with `LengthMismatch` whenever the byte lengths differ; the length
check is the first thing the operation does, so the failure occurs before
any output is produced (in this embedding the operation is all-or-nothing
by construction: it returns either `ok` with a complete buffer or an
error). -/
theorem c4_add_length_mismatch (fragment1 fragment2 : List Nat) (w : Nat)
    (h : fragment1.length ≠ fragment2.length) :
    add fragment1 fragment2 w = .error .lengthMismatch := by
  simp [add, h]

/-- C4 witness. -/
theorem c4_witness :
    add [0] [] 0 = .error .lengthMismatch :=
  c4_add_length_mismatch [0] [] 0 (by decide)

/-! ### C8: lin2lin identity at equal widths -/

/-- C8 (confirmed): `lin2lin` returns the fragment unchanged whenever
source and destination widths coincide (for the supported widths 1, 2, 4 —
indeed the equal-width short-circuit fires for any width). -/
theorem c8_lin2lin_identity (fragment : List Nat) (w : Nat)
    (hw : w = 1 ∨ w = 2 ∨ w = 4) :
    lin2lin fragment w w = .ok fragment := by
  simp [lin2lin]

/-- C8 witness. -/
theorem c8_witness :
    lin2lin [1, 2] 2 2 = .ok [1, 2] :=
  c8_lin2lin_identity [1, 2] 2 (by decide)

/-! ### C5: mul saturates on width-2 fragments -/

/-- C5 (confirmed): `mul` saturates instead of wrapping — every sample of
a successful width-2 result lies in `[-32768, 32767]` for every fragment
and every factor, and in particular scaling the fragment holding the
single maximum positive sample 32767 (bytes `[255, 127]`) by factor 2
yields 32767 again (bytes `[255, 127]`), never a negative value. -/
theorem c5_mul_saturates (fragment out : List Nat) (ss : List Int)
    (factor : Rat) (hm : mul fragment 2 factor = .ok out)
    (hu : unpack16 out = .ok ss) :
    (∀ s ∈ ss, -32768 ≤ s ∧ s ≤ 32767) ∧
      mul [255, 127] 2 2 = .ok [255, 127] := by
  constructor
  · by_cases hf : fragment = []
    · subst hf
      have hout : Except.ok ([] : List Nat) = Except.ok out := hm
      injection hout with hout
      subst hout
      have hss : Except.ok ([] : List Int) = Except.ok ss := hu
      injection hss with hss
      subst hss
      simp
    · rw [mul_two fragment factor hf] at hm
      obtain ⟨samples, _, hok⟩ := except_bind_eq_ok hm
      injection hok with hok
      subst hok
      have hb : ∀ s ∈ samples.map fun s : Int =>
          clip (truncQ ((s : Rat) * factor)) (-32768) 32767,
          -32768 ≤ s ∧ s ≤ 32767 := by
        intro s hs
        obtain ⟨t, _, rfl⟩ := List.mem_map.mp hs
        exact ⟨clip_lower _ _ _, clip_upper _ _ _ (by norm_num)⟩
      rw [unpack16_pack16List _ hb] at hu
      injection hu with hu
      subst hu
      exact hb
  · have e1 : unpack16 [255, 127] = .ok [32767] := by
      simp [unpack16, decode16, except_bind_ok]
    have e2 : truncQ ((32767 : Rat) * 2) = 65534 := by
      have h65534 : (32767 : Rat) * 2 = ((65534 : Int) : Rat) := by
        push_cast
        norm_num
      rw [h65534, truncQ_intCast]
    have e3 : clip 65534 (-32768) 32767 = 32767 := by
      unfold clip
      decide
    simp [mul, e1, except_bind_ok, e2, e3, pack16List, pack16]

/-- C5 witness. -/
theorem c5_witness :
    mul [0, 0] 2 0 = .ok [0, 0] ∧ unpack16 [0, 0] = .ok [0] ∧
      ((∀ s ∈ ([0] : List Int), -32768 ≤ s ∧ s ≤ 32767) ∧
        mul [255, 127] 2 2 = .ok [255, 127]) := by
  have h1 : mul [0, 0] 2 0 = .ok [0, 0] := by
    have e1 : unpack16 [0, 0] = .ok [0] := by
      simp [unpack16, decode16, except_bind_ok]
    have e2 : truncQ ((0 : Rat)) = 0 := by
      rw [show ((0 : Rat)) = ((0 : Int) : Rat) by norm_num, truncQ_intCast]
    have e3 : clip 0 (-32768) 32767 = 0 := by
      unfold clip
      decide
    simp [mul, e1, except_bind_ok, e2, e3, pack16List, pack16]
  have h2 : unpack16 [0, 0] = .ok [0] := by
    simp [unpack16, decode16, except_bind_ok]
  exact ⟨h1, h2, c5_mul_saturates [0, 0] [0, 0] [0] 0 h1 h2⟩

/-! ### C6: tomono output length -/

/-- C6 (confirmed): for every width in {1,2,4} and every fragment of `N`
samples (byte length `N * width`), a successful `tomono` produces exactly
`⌊N/2⌋` output samples (`⌊N/2⌋ * width` bytes); an odd trailing sample is
dropped. -/
theorem c6_tomono_length (fragment : List Nat) (w N : Nat) (lf rf : Rat)
    (out : List Nat) (hw : w = 1 ∨ w = 2 ∨ w = 4)
    (hl : fragment.length = N * w) (h : tomono fragment w lf rf = .ok out) :
    out.length = N / 2 * w := by
  by_cases hf : fragment = []
  · subst hf
    have hempty : tomono [] w lf rf = Except.ok ([] : List Nat) := by
      simp [tomono]
    rw [hempty] at h
    injection h with h
    subst h
    have hN : N = 0 ∨ w = 0 := by
      have hmul := hl.symm
      simp only [List.length_nil] at hmul
      exact Nat.mul_eq_zero.mp hmul
    rcases hw with rfl | rfl | rfl <;> rcases hN with rfl | hN <;> simp_all
  · rcases hw with rfl | rfl | rfl
    · rw [tomono_one fragment lf rf hf] at h
      injection h with h
      subst h
      simp only [List.length_map, monoPairs_length]
      omega
    · rw [tomono_two fragment lf rf hf] at h
      obtain ⟨samples, hr, hok⟩ := except_bind_eq_ok h
      injection hok with hok
      subst hok
      have hlen := unpack16_length fragment samples hr
      rw [pack16List_length, monoPairs_length]
      omega
    · rw [tomono_four fragment lf rf hf] at h
      obtain ⟨samples, hr, hok⟩ := except_bind_eq_ok h
      injection hok with hok
      subst hok
      have hlen := unpack32_length fragment samples hr
      rw [pack32List_length, monoPairs_length]
      omega

/-- C6 witness: three width-1 samples, trailing sample dropped. -/
theorem c6_witness :
    tomono [9, 9, 9] 1 0 0 = .ok [0] ∧ ([0] : List Nat).length = 3 / 2 * 1 := by
  have h : tomono [9, 9, 9] 1 0 0 = .ok [0] := by
    have e4 : truncQ 0 = 0 := by
      rw [show ((0 : Rat)) = ((0 : Int) : Rat) by norm_num, truncQ_intCast]
    have e3 : clip 0 0 255 = 0 := by
      unfold clip
      decide
    rw [tomono_one [9, 9, 9] 0 0 (by decide)]
    simp [monoPairs, e4, e3]
  exact ⟨h, c6_tomono_length [9, 9, 9] 1 3 0 0 [0] (by decide) (by decide) h⟩

/-! ### C10: 8-bit to 16-bit and back is lossless -/

/-- C10 (confirmed): widening width-1 samples to width 2 and narrowing
back is exactly the identity: the up-conversion maps a byte `s` to
`(s - 128) * 256` and the down-conversion floor-divides by 256 and adds
128, which inverts it exactly. -/
theorem c10_lin2lin_roundtrip (x y : List Nat) (hb : ∀ b ∈ x, b < 256)
    (h : lin2lin x 1 2 = .ok y) : lin2lin y 2 1 = .ok x := by
  by_cases hx : x = []
  · subst hx
    have hout : Except.ok ([] : List Nat) = Except.ok y := h
    injection hout with hout
    subst hout
    rfl
  · rw [lin2lin_one_two x hx] at h
    have hrange : ∀ s ∈ x.map fun s : Nat => ((s : Int) - 128) * 256,
        -32768 ≤ s ∧ s ≤ 32767 := by
      intro s hs
      obtain ⟨b, hbx, rfl⟩ := List.mem_map.mp hs
      have := hb b hbx
      omega
    rw [map_clip_id _ _ _ hrange] at h
    injection h with h
    subst h
    have hy : pack16List (x.map fun s : Nat => ((s : Int) - 128) * 256) ≠ [] := by
      intro hnil
      have hlen := pack16List_length (x.map fun s : Nat => ((s : Int) - 128) * 256)
      rw [hnil] at hlen
      simp only [List.length_nil, List.length_map] at hlen
      exact hx (List.eq_nil_of_length_eq_zero (by omega))
    rw [lin2lin_two_one _ hy, unpack16_pack16List _ hrange, except_bind_ok]
    rw [List.map_map]
    have hmap : ∀ b ∈ x,
        ((fun s => (clip (s.fdiv 256 + 128) 0 255).toNat) ∘
          fun s : Nat => ((s : Int) - 128) * 256) b = b := by
      intro b hbx
      have hb256 := hb b hbx
      simp only [Function.comp_apply]
      rw [Int.mul_fdiv_cancel _ (by norm_num)]
      rw [show (b : Int) - 128 + 128 = (b : Int) by ring]
      rw [clip_of_mem _ _ _ (by omega) (by omega)]
      exact Int.toNat_natCast b
    rw [show (x.map (((fun s => (clip (s.fdiv 256 + 128) 0 255).toNat) ∘
          fun s : Nat => ((s : Int) - 128) * 256))) = x.map id from
      List.map_congr_left hmap, List.map_id]

/-- C10 witness. -/
theorem c10_witness :
    (∀ b ∈ ([0, 200] : List Nat), b < 256) ∧
      lin2lin [0, 200] 1 2 = .ok [0, 128, 0, 72] ∧
      lin2lin [0, 128, 0, 72] 2 1 = .ok [0, 200] := by
  have h : lin2lin [0, 200] 1 2 = .ok [0, 128, 0, 72] := by
    decide
  exact ⟨by decide, h,
    c10_lin2lin_roundtrip [0, 200] [0, 128, 0, 72] (by decide) h⟩

/-! ### C9: companding round-trip error bound -/

/-- C9 (confirmed): for every width-2 fragment (whose decoded samples
necessarily lie in `[-32768, 32767]`), the round trip
`ulaw2lin(lin2ulaw(x, 2), 2)` keeps every sample within one 8-bit
quantization step of the original: the absolute difference is strictly
less than 256. -/
theorem c9_companding_roundtrip (x y z : List Nat) (sx sz : List Int)
    (hb : ∀ b ∈ x, b < 256)
    (h1 : lin2ulaw x 2 = .ok y) (h2 : ulaw2lin y 2 = .ok z)
    (hx : unpack16 x = .ok sx) (hz : unpack16 z = .ok sz) :
    sz.length = sx.length ∧
      ∀ i (hi : i < sz.length) (hj : i < sx.length),
        (sz.get ⟨i, hi⟩ - sx.get ⟨i, hj⟩).natAbs < 256 := by
  by_cases hne : x = []
  · subst hne
    have hy : Except.ok ([] : List Nat) = Except.ok y := h1
    injection hy with hy
    subst hy
    have hzz : Except.ok ([] : List Nat) = Except.ok z := h2
    injection hzz with hzz
    subst hzz
    have hsx : Except.ok ([] : List Int) = Except.ok sx := hx
    injection hsx with hsx
    subst hsx
    have hsz : Except.ok ([] : List Int) = Except.ok sz := hz
    injection hsz with hsz
    subst hsz
    exact ⟨rfl, fun i hi _ => absurd hi (by simp)⟩
  · have hbs : ∀ s ∈ sx, -32768 ≤ s ∧ s ≤ 32767 :=
      unpack16_bounds x sx hx hb
    rw [lin2ulaw_two x hne] at h1
    obtain ⟨sx', hux, hok⟩ := except_bind_eq_ok h1
    rw [hx] at hux
    injection hux with hux
    subst hux
    injection hok with hok
    subst hok
    have hyne : (sx.map fun s => (clip ((s + 32768).fdiv 256) 0 255).toNat) ≠
        [] := by
      intro hnil
      have hxlen := unpack16_length x sx hx
      rw [List.map_eq_nil_iff] at hnil
      subst hnil
      simp only [List.length_nil, Nat.mul_zero] at hxlen
      exact hne (List.eq_nil_of_length_eq_zero hxlen)
    rw [ulaw2lin_two _ hyne, List.map_map] at h2
    have hcomp : ∀ s ∈ sx,
        ((fun u : Nat => clip (((u : Int) - 128) * 256) (-32768) 32767) ∘
          fun s => (clip ((s + 32768).fdiv 256) 0 255).toNat) s =
          ((s + 32768) / 256 - 128) * 256 := by
      intro s hs
      obtain ⟨hlo, hhi⟩ := hbs s hs
      simp only [Function.comp_apply]
      rw [Int.fdiv_eq_ediv _ (by norm_num)]
      have hdiv1 : 0 ≤ (s + 32768) / 256 := by omega
      have hdiv2 : (s + 32768) / 256 ≤ 255 := by omega
      rw [clip_of_mem ((s + 32768) / 256) 0 255 hdiv1 hdiv2]
      rw [Int.toNat_of_nonneg hdiv1]
      rw [clip_of_mem _ _ _ (by omega) (by omega)]
    rw [List.map_congr_left hcomp] at h2
    have hrange : ∀ v ∈ sx.map fun s => ((s + 32768) / 256 - 128) * 256,
        -32768 ≤ v ∧ v ≤ 32767 := by
      intro v hv
      obtain ⟨s, hs, rfl⟩ := List.mem_map.mp hv
      obtain ⟨hlo, hhi⟩ := hbs s hs
      omega
    injection h2 with h2
    subst h2
    rw [unpack16_pack16List _ hrange] at hz
    injection hz with hz
    subst hz
    constructor
    · simp
    · intro i hi hj
      simp only [List.get_eq_getElem, List.getElem_map]
      have hmem : sx.get ⟨i, hj⟩ ∈ sx := List.get_mem sx i hj
      obtain ⟨hlo, hhi⟩ := hbs _ hmem
      simp only [List.get_eq_getElem] at hlo hhi
      omega

/-- C9 witness. -/
theorem c9_witness :
    lin2ulaw [0, 0] 2 = .ok [128] ∧ ulaw2lin [128] 2 = .ok [0, 0] ∧
      (([0] : List Int).length = ([0] : List Int).length ∧
        ∀ i (hi : i < ([0] : List Int).length)
          (hj : i < ([0] : List Int).length),
          (([0] : List Int).get ⟨i, hi⟩ -
            ([0] : List Int).get ⟨i, hj⟩).natAbs < 256) := by
  refine ⟨by decide, by decide, ?_⟩
  exact c9_companding_roundtrip [0, 0] [128] [0, 0] [0] [0] (by decide)
    (by decide) (by decide) (by decide) (by decide)

/-! ### C7: reverse is an involution that moves chunk i to chunk N-1-i -/

theorem reverse_eq_revGo (w : Nat) (hw : 0 < w) :
    ∀ (n : Nat) (l : List Nat), l.length = n * w →
      reverse l w = revGo l w (n * w - w) n
  | 0, l, hl => by
      have hnil : l = [] := List.eq_nil_of_length_eq_zero (by simpa using hl)
      subst hnil
      rfl
  | n + 1, l, hl => by
      have hne : l ≠ [] := by
        intro hnil
        subst hnil
        simp only [List.length_nil] at hl
        rcases Nat.mul_eq_zero.mp hl.symm with h | h <;> omega
      have hle : w ≤ (n + 1) * w := by
        rw [add_one_mul]
        omega
      have hiters : revIters l.length w = n + 1 := by
        unfold revIters
        rw [if_pos ⟨hw, by rw [hl]; exact hle⟩, hl, add_one_mul,
          Nat.add_sub_cancel, Nat.mul_div_cancel n hw]
      unfold reverse
      rw [if_neg hne, hiters, hl]

theorem revGo_shift (w : Nat) (hw : 0 < w) (c l' : List Nat)
    (hc : c.length = w) :
    ∀ j : Nat, revGo (c ++ l') w (j * w) (j + 1) =
      revGo l' w (j * w - w) j ++ c
  | 0 => by
      show pySlice (c ++ l') (0 * w) w ++ revGo (c ++ l') w (0 * w - w) 0 =
        revGo l' w (0 * w - w) 0 ++ c
      show pySlice (c ++ l') (0 * w) w ++ [] = [] ++ c
      rw [List.append_nil, List.nil_append]
      unfold pySlice
      rw [Nat.zero_mul, List.drop_zero, ← hc, List.take_left]
  | j + 1 => by
      have harith : (j + 1) * w - w = j * w := by
        rw [add_one_mul, Nat.add_sub_cancel]
      show pySlice (c ++ l') ((j + 1) * w) w ++
        revGo (c ++ l') w ((j + 1) * w - w) (j + 1) = _
      rw [harith, revGo_shift w hw c l' hc j]
      have hslice : pySlice (c ++ l') ((j + 1) * w) w =
          pySlice l' (j * w) w := by
        unfold pySlice
        rw [List.drop_append_eq_append_drop,
          List.drop_eq_nil_of_le (show c.length ≤ (j + 1) * w by
            rw [hc, add_one_mul]; omega),
          List.nil_append, hc, harith]
      rw [hslice,
        show revGo l' w (j * w) (j + 1) =
          pySlice l' (j * w) w ++ revGo l' w (j * w - w) j from rfl,
        List.append_assoc]

theorem revGo_append_frozen (w : Nat) (A c : List Nat) :
    ∀ (k i : Nat), i + w ≤ A.length →
      revGo (A ++ c) w i k = revGo A w i k
  | 0, _, _ => rfl
  | k + 1, i, hi => by
      show pySlice (A ++ c) i w ++ revGo (A ++ c) w (i - w) k =
        pySlice A i w ++ revGo A w (i - w) k
      have hslice : pySlice (A ++ c) i w = pySlice A i w := by
        unfold pySlice
        rw [List.drop_append_eq_append_drop,
          Nat.sub_eq_zero_of_le (show i ≤ A.length by omega), List.drop_zero,
          List.take_append_eq_append_take, List.length_drop,
          Nat.sub_eq_zero_of_le (show w ≤ A.length - i by omega),
          List.take_zero, List.append_nil]
      rw [hslice, revGo_append_frozen w A c k (i - w) (by omega)]

theorem reverse_single (w : Nat) (hw : 0 < w) (c : List Nat)
    (hc : c.length = w) : reverse c w = c := by
  have h1 := reverse_eq_revGo w hw 1 c (by rw [hc, Nat.one_mul])
  rw [Nat.one_mul, Nat.sub_self] at h1
  rw [h1]
  show pySlice c 0 w ++ revGo c w (0 - w) 0 = c
  show pySlice c 0 w ++ [] = c
  rw [List.append_nil]
  unfold pySlice
  rw [List.drop_zero]
  exact List.take_of_length_le (by omega)

theorem reverse_step (w : Nat) (hw : 0 < w) (n : Nat) (l : List Nat)
    (hl : l.length = (n + 1) * w) :
    reverse l w = reverse (l.drop w) w ++ l.take w := by
  have harith : (n + 1) * w - w = n * w := by
    rw [add_one_mul, Nat.add_sub_cancel]
  have hwle : w ≤ l.length := by
    rw [hl, add_one_mul]
    omega
  have htake : (l.take w).length = w := by
    rw [List.length_take]
    omega
  have hdrop : (l.drop w).length = n * w := by
    rw [List.length_drop, hl, add_one_mul, Nat.add_sub_cancel]
  have hshift := revGo_shift w hw (l.take w) (l.drop w) htake n
  rw [List.take_append_drop] at hshift
  rw [reverse_eq_revGo w hw (n + 1) l hl, harith, hshift,
    ← reverse_eq_revGo w hw n (l.drop w) hdrop]

theorem reverse_length (w : Nat) (hw : 0 < w) :
    ∀ (n : Nat) (l : List Nat), l.length = n * w →
      (reverse l w).length = l.length
  | 0, l, hl => by
      have hnil : l = [] := List.eq_nil_of_length_eq_zero (by simpa using hl)
      subst hnil
      rfl
  | n + 1, l, hl => by
      have hdrop : (l.drop w).length = n * w := by
        rw [List.length_drop, hl, add_one_mul, Nat.add_sub_cancel]
      have hwle : w ≤ l.length := by
        rw [hl, add_one_mul]
        omega
      rw [reverse_step w hw n l hl, List.length_append,
        reverse_length w hw n (l.drop w) hdrop, hdrop, List.length_take,
        hl, add_one_mul]
      omega

theorem reverse_last (w : Nat) (hw : 0 < w) (n : Nat) (A c : List Nat)
    (hA : A.length = n * w) (hc : c.length = w) :
    reverse (A ++ c) w = c ++ reverse A w := by
  cases n with
  | zero =>
      have hnil : A = [] := List.eq_nil_of_length_eq_zero (by simpa using hA)
      subst hnil
      rw [List.nil_append, reverse_single w hw c hc,
        show reverse ([] : List Nat) w = [] from rfl, List.append_nil]
  | succ m =>
      have hlen : (A ++ c).length = (m + 2) * w := by
        rw [List.length_append, hA, hc]
        ring
      have harith : (m + 2) * w - w = (m + 1) * w := by
        have : (m + 2) * w = (m + 1) * w + w := by ring
        rw [this, Nat.add_sub_cancel]
      rw [reverse_eq_revGo w hw (m + 2) (A ++ c) hlen, harith]
      show pySlice (A ++ c) ((m + 1) * w) w ++
        revGo (A ++ c) w ((m + 1) * w - w) (m + 1) = _
      have hslice : pySlice (A ++ c) ((m + 1) * w) w = c := by
        unfold pySlice
        rw [← hA, List.drop_left]
        exact List.take_of_length_le (by omega)
      have harith2 : (m + 1) * w - w = m * w := by
        rw [add_one_mul, Nat.add_sub_cancel]
      have hfrozen : revGo (A ++ c) w ((m + 1) * w - w) (m + 1) =
          revGo A w ((m + 1) * w - w) (m + 1) := by
        apply revGo_append_frozen
        rw [harith2, hA, add_one_mul]
      rw [hslice, hfrozen, ← reverse_eq_revGo w hw (m + 1) A hA]

theorem reverse_reverse (w : Nat) (hw : 0 < w) :
    ∀ (n : Nat) (l : List Nat), l.length = n * w →
      reverse (reverse l w) w = l
  | 0, l, hl => by
      have hnil : l = [] := List.eq_nil_of_length_eq_zero (by simpa using hl)
      subst hnil
      rfl
  | n + 1, l, hl => by
      have hwle : w ≤ l.length := by
        rw [hl, add_one_mul]
        omega
      have hdrop : (l.drop w).length = n * w := by
        rw [List.length_drop, hl, add_one_mul, Nat.add_sub_cancel]
      have htake : (l.take w).length = w := by
        rw [List.length_take]
        omega
      have hA : (reverse (l.drop w) w).length = n * w := by
        rw [reverse_length w hw n (l.drop w) hdrop, hdrop]
      rw [reverse_step w hw n l hl,
        reverse_last w hw n (reverse (l.drop w) w) (l.take w) hA htake,
        reverse_reverse w hw n (l.drop w) hdrop, List.take_append_drop]

theorem reverse_chunkAt (w : Nat) (hw : 0 < w) :
    ∀ (n : Nat) (l : List Nat), l.length = n * w →
      ∀ i, i < n → chunkAt (reverse l w) w i = chunkAt l w (n - 1 - i)
  | 0, _, _, i, hi => absurd hi (by omega)
  | n + 1, l, hl, i, hi => by
      have hwle : w ≤ l.length := by
        rw [hl, add_one_mul]
        omega
      have hdrop : (l.drop w).length = n * w := by
        rw [List.length_drop, hl, add_one_mul, Nat.add_sub_cancel]
      have htake : (l.take w).length = w := by
        rw [List.length_take]
        omega
      have hA : (reverse (l.drop w) w).length = n * w := by
        rw [reverse_length w hw n (l.drop w) hdrop, hdrop]
      rw [reverse_step w hw n l hl]
      rcases Nat.lt_or_ge i n with hin | hin
      · have hiw : i * w + w ≤ n * w := by
          have h1 : (i + 1) * w ≤ n * w :=
            Nat.mul_le_mul_right w (by omega)
          rw [add_one_mul] at h1
          exact h1
        have hchunk : chunkAt (reverse (l.drop w) w ++ l.take w) w i =
            chunkAt (reverse (l.drop w) w) w i := by
          unfold chunkAt
          rw [List.drop_append_eq_append_drop,
            Nat.sub_eq_zero_of_le (show i * w ≤ (reverse (l.drop w) w).length
              by omega), List.drop_zero,
            List.take_append_eq_append_take, List.length_drop,
            Nat.sub_eq_zero_of_le (show w ≤ (reverse (l.drop w) w).length -
              i * w by omega),
            List.take_zero, List.append_nil]
        rw [hchunk, reverse_chunkAt w hw n (l.drop w) hdrop i hin]
        unfold chunkAt
        rw [List.drop_drop]
        have harith : w + (n - 1 - i) * w = (n + 1 - 1 - i) * w := by
          have h1 : n + 1 - 1 - i = (n - 1 - i) + 1 := by omega
          rw [h1, add_one_mul]
          omega
        rw [harith]
      · have hieq : i = n := by omega
        subst hieq
        have hchunk : chunkAt (reverse (l.drop w) w ++ l.take w) w i =
            l.take w := by
          unfold chunkAt
          rw [← hA, List.drop_left]
          exact List.take_of_length_le (by omega)
        rw [hchunk]
        have hzero : i + 1 - 1 - i = 0 := by omega
        unfold chunkAt
        rw [hzero, Nat.zero_mul, List.drop_zero]

/-- C7 (confirmed): for every width and every fragment whose byte length
is a multiple of the width (`length = n * width`), `reverse` is an
involution, and it moves the whole sample (chunk of `width` bytes) at
sample position `i` to position `n - 1 - i` without reordering the bytes
inside a sample. -/
theorem c7_reverse_involution (l : List Nat) (w n : Nat)
    (hl : l.length = n * w) :
    reverse (reverse l w) w = l ∧
      ∀ i, i < n → chunkAt (reverse l w) w i = chunkAt l w (n - 1 - i) := by
  rcases Nat.eq_zero_or_pos w with rfl | hw
  · have hnil : l = [] := List.eq_nil_of_length_eq_zero (by simpa using hl)
    subst hnil
    exact ⟨rfl, fun i _ => rfl⟩
  · exact ⟨reverse_reverse w hw n l hl, reverse_chunkAt w hw n l hl⟩

/-- C7 witness: a four-byte fragment of two 16-bit samples. -/
theorem c7_witness :
    ([1, 2, 3, 4] : List Nat).length = 2 * 2 ∧
      (reverse (reverse [1, 2, 3, 4] 2) 2 = [1, 2, 3, 4] ∧
        ∀ i, i < 2 → chunkAt (reverse [1, 2, 3, 4] 2) 2 i =
          chunkAt [1, 2, 3, 4] 2 (2 - 1 - i)) :=
  ⟨by decide, c7_reverse_involution [1, 2, 3, 4] 2 2 (by decide)⟩

end Audioop
